import Mathlib

/-!
Verification of the Cantor-space search engine in `src/main.cc`.

The program decides existential quantification over infinite bit sequences:
`ForSome` adaptively discovers the finite set of positions a predicate reads
(via `LazyBitStream`, which records out-of-present reads into a requested
set), enumerates all assignments over that set with a binary-counter walk,
and grows the set whenever a trial comes back undetermined.  Combinators
(`ForEvery`, `ForEvery2`, `Equal`, `Eq`, `Modulus`) are built on top.

A predicate (C++ type `BitStream* -> std::optional<Bit>`, always written
with the `ASSIGN_OR_RETURN` early-return pattern) is embedded as a finite
decision tree `Query`: each node either returns a value or asks for one bit
at a position and continues with the answer.  `ASSIGN_OR_RETURN`'s
undetermined propagation is the run function stopping at the first `Get`
that falls outside the present set.  The C++ `while (true)` outer loop of
`ForSome` is embedded with explicit fuel; the correctness theorem shows the
fuel chosen for the top-level entry point is always sufficient.
-/

namespace Cantor

/-- A predicate over an infinite bit sequence, embedded as the tree of its
interactions with `BitStream::Get`: either return a result, or read the bit
at a position and continue depending on its value. -/
inductive Query (α : Type) where
  | done : α → Query α
  | ask : Nat → (Bool → Query α) → Query α

/-- Run a query against a total bit sequence: every `Get` is answered. -/
def runTotal {α : Type} : Query α → (Nat → Bool) → α
  | .done a, _ => a
  | .ask i k, s => runTotal (k (s i)) s

/-- Sequencing of queries; this is the `ASSIGN_OR_RETURN` chaining used in
all predicate bodies of `main.cc`. -/
def Query.bind {α β : Type} : Query α → (α → Query β) → Query β
  | .done a, f => f a
  | .ask i k, f => .ask i (fun b => (k b).bind f)

/-- All positions that occur in a query tree (over every branch). -/
def Query.indices {α : Type} : Query α → Finset Nat
  | .done _ => ∅
  | .ask i k => insert i ((k false).indices ∪ (k true).indices)

/-- A single `Get` on the stream, as a query. -/
def getQ (i : Nat) : Query Bool := .ask i .done

/-- `StridedBitStream` (main.cc): reading position `idx` of the view reads
`idx * stride + offset` of the source; on a query tree this renames every
asked position. -/
def strideQ {α : Type} (f : Nat → Nat) : Query α → Query α
  | .done a => .done a
  | .ask i k => .ask (f i) (fun b => strideQ f (k b))

/-- The `inverse_pred` wrapper from `ForEvery` (main.cc): propagate
undetermined unchanged (built into `bind`), invert a definite result. -/
def negateQ (q : Query Bool) : Query Bool := q.bind (fun v => .done (!v))

theorem runTotal_bind {α β : Type} (q : Query α) (f : α → Query β) (s : Nat → Bool) :
    runTotal (q.bind f) s = runTotal (f (runTotal q s)) s := by
  induction q with
  | done a => rfl
  | ask i k ih => simp [Query.bind, runTotal, ih]

theorem runTotal_strideQ {α : Type} (f : Nat → Nat) (q : Query α) (s : Nat → Bool) :
    runTotal (strideQ f q) s = runTotal q (fun i => s (f i)) := by
  induction q with
  | done a => rfl
  | ask i k ih => simp [strideQ, runTotal, ih]

theorem runTotal_negateQ (q : Query Bool) (s : Nat → Bool) :
    runTotal (negateQ q) s = !(runTotal q s) := by
  simp [negateQ, runTotal_bind, runTotal]

theorem indices_sub_ask {α : Type} (i : Nat) (k : Bool → Query α) (b : Bool) :
    (k b).indices ⊆ (Query.ask i k).indices := by
  intro x hx
  cases b <;> simp [Query.indices] <;> tauto

theorem runTotal_congr {α : Type} (q : Query α) (a b : Nat → Bool)
    (h : ∀ i ∈ q.indices, a i = b i) : runTotal q a = runTotal q b := by
  induction q with
  | done x => rfl
  | ask i k ih =>
    have hi : a i = b i := h i (by simp [Query.indices])
    simp only [runTotal, hi]
    exact ih (b i) (fun j hj => h j (indices_sub_ask i k (b i) hj))

/-- Every query tree is prefix-determined: its result depends on only the
finitely many positions occurring in the tree. -/
def PrefixDetermined (q : Query Bool) : Prop :=
  ∃ D : Finset Nat, ∀ a b : Nat → Bool, (∀ i ∈ D, a i = b i) →
    runTotal q a = runTotal q b

theorem prefixDetermined_of_query (q : Query Bool) : PrefixDetermined q :=
  ⟨q.indices, fun a b h => runTotal_congr q a b h⟩

/-- `BitSet` (main.cc): a growable set of naturals represented as a vector
of booleans. -/
structure BitSet where
  rep : List Bool
deriving DecidableEq

/-- A freshly constructed (or cleared) `BitSet`. -/
def emptyBitSet : BitSet := ⟨[]⟩

/-- `BitSet::Contains`: `idx < rep_.size() && rep_[idx]`. -/
def BitSet.Contains (b : BitSet) (idx : Nat) : Bool :=
  decide (idx < b.rep.length) && b.rep.getD idx false

/-- `BitSet::Insert`: grow the representation (padding with false) to cover
`idx`, then set position `idx` to true. -/
def BitSet.Insert (b : BitSet) (idx : Nat) : BitSet :=
  ⟨(if idx < b.rep.length then b.rep
    else b.rep ++ List.replicate (idx + 1 - b.rep.length) false).set idx true⟩

/-- `BitSet::ForEach` collecting the visited members into a list (exactly
how `ForSome` snapshots the present set): it scans representation positions
`0, 1, ...` upward and keeps those holding true. -/
def BitSet.toList (b : BitSet) : List Nat :=
  (List.range b.rep.length).filter (fun i => b.rep.getD i false)

/-- `BitSet::size()`: the number of members (main.cc maintains this count
incrementally in the field `size_`; it equals the number of true entries of
the representation, i.e. the length of the member list). -/
def BitSet.size (b : BitSet) : Nat := b.toList.length

/-- The members of a `BitSet` as a `Finset` (for termination measures). -/
def BitSet.toFinset (b : BitSet) : Finset Nat := b.toList.toFinset

theorem BitSet.Contains_eq_getD (b : BitSet) (idx : Nat) :
    b.Contains idx = b.rep.getD idx false := by
  by_cases h : idx < b.rep.length
  · simp [BitSet.Contains, h]
  · simp [BitSet.Contains, h, List.getD_eq_getElem?_getD,
      List.getElem?_eq_none (Nat.le_of_not_lt h)]

theorem BitSet.Contains_empty (idx : Nat) : emptyBitSet.Contains idx = false := by
  simp [BitSet.Contains, emptyBitSet]

theorem BitSet.mem_toList (b : BitSet) (i : Nat) :
    i ∈ b.toList ↔ b.Contains i = true := by
  rw [BitSet.toList, BitSet.Contains, List.mem_filter, List.mem_range]
  simp

theorem BitSet.toList_sorted (b : BitSet) : List.Pairwise (· < ·) b.toList :=
  List.Pairwise.filter _ (List.pairwise_lt_range _)

theorem BitSet.toList_nodup (b : BitSet) : b.toList.Nodup :=
  (b.toList_sorted).imp Nat.ne_of_lt

theorem BitSet.mem_toFinset (b : BitSet) (i : Nat) :
    i ∈ b.toFinset ↔ b.Contains i = true := by
  rw [BitSet.toFinset, List.mem_toFinset]
  exact b.mem_toList i

theorem BitSet.length_Insert_rep (b : BitSet) (r : Nat) :
    (b.Insert r).rep.length = max b.rep.length (r + 1) := by
  rw [BitSet.Insert]
  by_cases h : r < b.rep.length <;>
    simp [h, List.length_set, List.length_append, List.length_replicate] <;> omega

theorem BitSet.Contains_Insert (b : BitSet) (r i : Nat) :
    (b.Insert r).Contains i = (decide (i = r) || b.Contains i) := by
  rw [BitSet.Contains_eq_getD, BitSet.Contains_eq_getD]
  rw [BitSet.Insert]
  by_cases hir : i = r
  · subst hir
    have hlen : i < (if i < b.rep.length then b.rep
        else b.rep ++ List.replicate (i + 1 - b.rep.length) false).length := by
      by_cases h : i < b.rep.length
      · simp [h]
      · simp only [h, if_false, List.length_append, List.length_replicate]
        omega
    simp [List.getD_eq_getElem?_getD, List.getElem?_set_self hlen]
  · have hset : ((if r < b.rep.length then b.rep
        else b.rep ++ List.replicate (r + 1 - b.rep.length) false).set r true)[i]? =
        (if r < b.rep.length then b.rep
        else b.rep ++ List.replicate (r + 1 - b.rep.length) false)[i]? :=
      List.getElem?_set_ne (fun h => hir h.symm)
    simp only [List.getD_eq_getElem?_getD, hset, hir, decide_False, Bool.false_or]
    by_cases h : r < b.rep.length
    · simp [h]
    · simp only [h, if_false]
      by_cases hi : i < b.rep.length
      · rw [List.getElem?_append_left hi]
      · rw [List.getElem?_append_right (Nat.le_of_not_lt hi),
          List.getElem?_eq_none (Nat.le_of_not_lt hi)]
        rw [List.getElem?_replicate]
        by_cases hlt : i - b.rep.length < r + 1 - b.rep.length <;> simp [hlt]

theorem BitSet.toFinset_Insert (b : BitSet) (r : Nat) :
    (b.Insert r).toFinset = insert r b.toFinset := by
  ext x
  simp [BitSet.mem_toFinset, BitSet.Contains_Insert]

theorem BitSet.size_eq_card (b : BitSet) : b.toFinset.card = b.size :=
  List.toFinset_card_of_nodup b.toList_nodup

theorem BitSet.size_Insert_new (b : BitSet) (r : Nat) (h : b.Contains r = false) :
    (b.Insert r).size = b.size + 1 := by
  rw [← BitSet.size_eq_card, ← BitSet.size_eq_card, BitSet.toFinset_Insert]
  rw [Finset.card_insert_of_not_mem]
  rw [BitSet.mem_toFinset]
  simp [h]

theorem list_eq_singleton_of_mem_iff {l : List Nat} {r : Nat}
    (hnd : l.Nodup) (hmem : ∀ x, x ∈ l ↔ x = r) : l = [r] := by
  cases l with
  | nil => exact absurd ((hmem r).mpr rfl) (List.not_mem_nil r)
  | cons x t =>
    have hx : x = r := (hmem x).mp (List.mem_cons_self x t)
    subst hx
    cases t with
    | nil => rfl
    | cons y t2 =>
      have hy : y = x := (hmem y).mp (List.mem_cons_of_mem x (List.mem_cons_self y t2))
      rw [List.nodup_cons] at hnd
      exact absurd (hy ▸ List.mem_cons_self y t2) (fun hc => hnd.1 (hy ▸ hc))

theorem BitSet.Insert_empty_toList (r : Nat) :
    (emptyBitSet.Insert r).toList = [r] := by
  apply list_eq_singleton_of_mem_iff (emptyBitSet.Insert r).toList_nodup
  intro x
  rw [BitSet.mem_toList, BitSet.Contains_Insert, BitSet.Contains_empty]
  simp

/-- `LazyBitStream::Get` (main.cc): if the index is in the present set, read
the working buffer (in C++ the read `values_[idx]` assumes in-bounds; the
reachability theorem below shows present indices are always in bounds, and
the embedding reads `getD` with default false); otherwise record the index
in the requested set and return undetermined. -/
def lazyGet (values : List Bool) (present : BitSet) (requested : BitSet)
    (idx : Nat) : Option Bool × BitSet :=
  if present.Contains idx then (some (values.getD idx false), requested)
  else (none, requested.Insert idx)

/-- Run a query against a `LazyBitStream` over the given buffer, present
set and requested set, mirroring how a predicate body interacts with the
view: the first `Get` outside the present set aborts the whole predicate
with undetermined (the `ASSIGN_OR_RETURN` early return) after recording the
index. Returns the predicate's optional result and the requested set. -/
def runP {α : Type} : Query α → List Bool → BitSet → BitSet → Option α × BitSet
  | .done a, _, _, req => (some a, req)
  | .ask i k, vals, P, req =>
    match lazyGet vals P req i with
    | (some b, req2) => runP (k b) vals P req2
    | (none, req2) => (none, req2)

theorem runP_ask {α : Type} (i : Nat) (k : Bool → Query α) (vals : List Bool)
    (P req : BitSet) :
    runP (.ask i k) vals P req =
      if P.Contains i then runP (k (vals.getD i false)) vals P req
      else (none, req.Insert i) := by
  rw [runP, lazyGet]
  by_cases h : P.Contains i <;> simp [h]

/-- A determinate result leaves the requested set untouched, and the result
agrees with the total run on any stream matching the buffer on the present
set. -/
theorem runP_some {α : Type} (q : Query α) (vals : List Bool) (P req : BitSet)
    (x : α) (req2 : BitSet) (h : runP q vals P req = (some x, req2)) :
    req2 = req ∧ ∀ s : Nat → Bool,
      (∀ i, P.Contains i = true → s i = vals.getD i false) →
      runTotal q s = x := by
  induction q generalizing req with
  | done a =>
    rw [runP] at h
    have h1 : a = x := by
      have := congrArg Prod.fst h
      simpa using this
    have h2 : req = req2 := congrArg Prod.snd h
    subst h1; subst h2
    exact ⟨rfl, fun s _ => rfl⟩
  | ask i k ih =>
    rw [runP_ask] at h
    by_cases hc : P.Contains i
    · rw [if_pos hc] at h
      obtain ⟨hreq, hrun⟩ := ih _ _ h
      refine ⟨hreq, fun s hs => ?_⟩
      rw [runTotal, hs i hc]
      exact hrun s hs
    · rw [if_neg hc] at h
      exact absurd (congrArg Prod.fst h) (by simp)

/-- An undetermined result records exactly one new index: one that the query
mentions and that is outside the present set. -/
theorem runP_none {α : Type} (q : Query α) (vals : List Bool) (P req : BitSet)
    (req2 : BitSet) (h : runP q vals P req = (none, req2)) :
    ∃ r, P.Contains r = false ∧ r ∈ q.indices ∧ req2 = req.Insert r := by
  induction q generalizing req with
  | done a =>
    rw [runP] at h
    exact absurd (congrArg Prod.fst h) (by simp)
  | ask i k ih =>
    rw [runP_ask] at h
    by_cases hc : P.Contains i
    · rw [if_pos hc] at h
      obtain ⟨r, hr1, hr2, hr3⟩ := ih _ _ h
      exact ⟨r, hr1, indices_sub_ask i k _ hr2, hr3⟩
    · rw [if_neg hc] at h
      refine ⟨i, by simp [hc], by simp [Query.indices], ?_⟩
      exact (congrArg Prod.snd h).symm

/-- The run of a query only reads buffer positions inside the present set. -/
theorem runP_congr {α : Type} (q : Query α) (v1 v2 : List Bool) (P req : BitSet)
    (h : ∀ i, P.Contains i = true → v1.getD i false = v2.getD i false) :
    runP q v1 P req = runP q v2 P req := by
  induction q generalizing req with
  | done a => rfl
  | ask i k ih =>
    rw [runP_ask, runP_ask]
    by_cases hc : P.Contains i
    · rw [if_pos hc, if_pos hc, h i hc]
      exact ih _ _
    · rw [if_neg hc, if_neg hc]

/-- `runP` through `bind`: sequencing runs the first query, then (only on a
determinate result) the continuation, threading the requested set. -/
theorem runP_bind {α β : Type} (q : Query α) (f : α → Query β)
    (vals : List Bool) (P req : BitSet) :
    runP (q.bind f) vals P req =
      match runP q vals P req with
      | (some x, req2) => runP (f x) vals P req2
      | (none, req2) => ((none : Option β), req2) := by
  induction q generalizing req with
  | done a => rw [Query.bind]; rfl
  | ask i k ih =>
    rw [Query.bind, runP_ask, runP_ask]
    by_cases hc : P.Contains i
    · rw [if_pos hc, if_pos hc, ih]
    · rw [if_neg hc, if_neg hc]

/-- One step of the binary-counter walk of `ForSome`'s trial loop
(main.cc): scan the snapshotted present positions in order; the first
position holding false is flipped to true and the scan stops; every
position holding true before it is reset to false. -/
def incr : List Nat → List Bool → List Bool
  | [], s => s
  | idx :: rest, s =>
    if s.getD idx false then incr rest (s.set idx false)
    else s.set idx true

/-- The scratch buffer after a number of counter steps: trial `j` of a
round runs the predicate on `iterIncr L j scratch0`. -/
def iterIncr (L : List Nat) : Nat → List Bool → List Bool
  | 0, s => s
  | j + 1, s => iterIncr L j (incr L s)

/-- The number whose binary digits are the bits at the listed positions,
least significant digit first. -/
def decodeF : List Nat → (Nat → Bool) → Nat
  | [], _ => 0
  | i :: rest, f => (f i).toNat + 2 * decodeF rest f

theorem getD_set_ne (s : List Bool) (i j : Nat) (b d : Bool) (h : i ≠ j) :
    (s.set i b).getD j d = s.getD j d := by
  simp [List.getD_eq_getElem?_getD, List.getElem?_set_ne h]

theorem getD_set_self (s : List Bool) (i : Nat) (b d : Bool) (h : i < s.length) :
    (s.set i b).getD i d = b := by
  simp [List.getD_eq_getElem?_getD, List.getElem?_set_self h]

theorem getD_replicate_false (n i : Nat) :
    (List.replicate n false).getD i false = false := by
  rw [List.getD_eq_getElem?_getD, List.getElem?_replicate]
  by_cases h : i < n <;> simp [h]

theorem incr_length (L : List Nat) (s : List Bool) :
    (incr L s).length = s.length := by
  induction L generalizing s with
  | nil => rfl
  | cons idx rest ih =>
    rw [incr]
    by_cases h : s.getD idx false
    · rw [if_pos h, ih, List.length_set]
    · rw [if_neg h, List.length_set]

theorem incr_getD_not_mem (L : List Nat) (s : List Bool) (j : Nat)
    (hj : j ∉ L) : (incr L s).getD j false = s.getD j false := by
  induction L generalizing s with
  | nil => rfl
  | cons idx rest ih =>
    have hji : idx ≠ j := fun h => hj (h ▸ List.mem_cons_self idx rest)
    have hjr : j ∉ rest := fun h => hj (List.mem_cons_of_mem idx h)
    rw [incr]
    by_cases h : s.getD idx false
    · rw [if_pos h, ih _ hjr, getD_set_ne _ _ _ _ _ hji]
    · rw [if_neg h, getD_set_ne _ _ _ _ _ hji]

theorem iterIncr_length (L : List Nat) (j : Nat) (s : List Bool) :
    (iterIncr L j s).length = s.length := by
  induction j generalizing s with
  | zero => rfl
  | succ j ih => rw [iterIncr, ih, incr_length]

theorem decodeF_congr (L : List Nat) (f g : Nat → Bool)
    (h : ∀ i ∈ L, f i = g i) : decodeF L f = decodeF L g := by
  induction L with
  | nil => rfl
  | cons idx rest ih =>
    rw [decodeF, decodeF, h idx (List.mem_cons_self idx rest),
      ih (fun i hi => h i (List.mem_cons_of_mem idx hi))]

theorem decodeF_lt (L : List Nat) (f : Nat → Bool) :
    decodeF L f < 2 ^ L.length := by
  induction L with
  | nil => simp [decodeF]
  | cons idx rest ih =>
    rw [decodeF, List.length_cons, pow_succ]
    cases f idx <;> simp [Bool.toNat] <;> omega

theorem decodeF_inj (L : List Nat) (f g : Nat → Bool)
    (h : decodeF L f = decodeF L g) : ∀ i ∈ L, f i = g i := by
  induction L with
  | nil => intro i hi; exact absurd hi (List.not_mem_nil i)
  | cons idx rest ih =>
    rw [decodeF, decodeF] at h
    have hhead : f idx = g idx := by
      cases hf : f idx <;> cases hg : g idx <;> rw [hf, hg] at h <;>
        simp [Bool.toNat] at h <;> first | rfl | omega
    have htail : decodeF rest f = decodeF rest g := by
      rw [hhead] at h; omega
    intro i hi
    rcases List.mem_cons.mp hi with h1 | h2
    · rw [h1, hhead]
    · exact ih htail i h2

theorem incr_decode (L : List Nat) (s : List Bool) (hnd : L.Nodup)
    (hb : ∀ i ∈ L, i < s.length) :
    decodeF L (fun i => (incr L s).getD i false) =
      (decodeF L (fun i => s.getD i false) + 1) % 2 ^ L.length := by
  induction L generalizing s with
  | nil => simp [decodeF, incr]
  | cons idx rest ih =>
    rw [List.nodup_cons] at hnd
    have hidx : idx < s.length := hb idx (List.mem_cons_self idx rest)
    rw [incr]
    by_cases h : s.getD idx false
    · rw [if_pos h, decodeF, decodeF, h]
      have hhead : (incr rest (s.set idx false)).getD idx false = false := by
        rw [incr_getD_not_mem _ _ _ hnd.1, getD_set_self _ _ _ _ hidx]
      rw [hhead]
      have htail := ih (s.set idx false) hnd.2
        (fun i hi => by rw [List.length_set]; exact hb i (List.mem_cons_of_mem idx hi))
      have hcongr : decodeF rest (fun i => (s.set idx false).getD i false) =
          decodeF rest (fun i => s.getD i false) :=
        decodeF_congr _ _ _ (fun i hi =>
          getD_set_ne _ _ _ _ _ (fun he => hnd.1 (he ▸ hi)))
      rw [htail, hcongr]
      simp only [Bool.toNat_false, Bool.toNat_true, Nat.zero_add, List.length_cons,
        pow_succ]
      have harith : 1 + 2 * decodeF rest (fun i => s.getD i false) + 1 =
          2 * (decodeF rest (fun i => s.getD i false) + 1) := by omega
      rw [harith, Nat.mul_comm (2 ^ rest.length) 2, Nat.mul_mod_mul_left]
    · rw [if_neg h, decodeF, decodeF]
      have hfalse : s.getD idx false = false := Bool.of_not_eq_true h
      have hhead : (s.set idx true).getD idx false = true :=
        getD_set_self _ _ _ _ hidx
      rw [hhead, hfalse]
      have hcongr : decodeF rest (fun i => (s.set idx true).getD i false) =
          decodeF rest (fun i => s.getD i false) :=
        decodeF_congr _ _ _ (fun i hi =>
          getD_set_ne _ _ _ _ _ (fun he => hnd.1 (he ▸ hi)))
      rw [hcongr]
      have hlt : decodeF rest (fun i => s.getD i false) < 2 ^ rest.length :=
        decodeF_lt _ _
      rw [Nat.mod_eq_of_lt]
      · simp only [Bool.toNat_true, Bool.toNat_false]
        omega
      · simp only [List.length_cons, pow_succ, Bool.toNat_false]
        omega

theorem iterIncr_decode (L : List Nat) (j : Nat) (s : List Bool)
    (hnd : L.Nodup) (hb : ∀ i ∈ L, i < s.length) :
    decodeF L (fun i => (iterIncr L j s).getD i false) =
      (decodeF L (fun i => s.getD i false) + j) % 2 ^ L.length := by
  induction j generalizing s with
  | zero =>
    rw [iterIncr, Nat.add_zero, Nat.mod_eq_of_lt (decodeF_lt _ _)]
  | succ j ih =>
    rw [iterIncr, ih (incr L s) (fun i hi => by rw [incr_length]; exact hb i hi),
      incr_decode L s hnd hb, Nat.mod_add_mod]
    congr 1
    omega

theorem iterIncr_succ_comm (L : List Nat) (j : Nat) (s : List Bool) :
    iterIncr L (j + 1) s = incr L (iterIncr L j s) := by
  induction j generalizing s with
  | zero => rfl
  | succ j ih => rw [iterIncr, ih, iterIncr]

theorem iterIncr_add (L : List Nat) (a b : Nat) (s : List Bool) :
    iterIncr L a (iterIncr L b s) = iterIncr L (a + b) s := by
  induction a generalizing s with
  | zero => rw [Nat.zero_add]; rfl
  | succ a ih =>
    rw [iterIncr_succ_comm, ih, ← iterIncr_succ_comm]
    congr 1
    omega

theorem decodeF_replicate_false (L : List Nat) (n : Nat) :
    decodeF L (fun i => (List.replicate n false).getD i false) = 0 := by
  induction L with
  | nil => rfl
  | cons idx rest ih => rw [decodeF, ih, getD_replicate_false]; rfl

/-- Coverage of the counter walk: within the first `2 ^ |L|` trials, every
assignment to the positions of `L` occurs (here: the one matching a given
stream `s`). -/
theorem exists_trial_matching (L : List Nat) (len : Nat) (hnd : L.Nodup)
    (hb : ∀ i ∈ L, i < len) (s : Nat → Bool) :
    ∃ j, 1 ≤ j ∧ j ≤ 2 ^ L.length ∧
      ∀ i ∈ L, (iterIncr L j (List.replicate len false)).getD i false = s i := by
  have hv : decodeF L s < 2 ^ L.length := decodeF_lt _ _
  have hpos : 1 ≤ 2 ^ L.length := Nat.one_le_two_pow
  refine ⟨if decodeF L s = 0 then 2 ^ L.length else decodeF L s, ?_, ?_, ?_⟩
  · by_cases h : decodeF L s = 0
    · rw [if_pos h]; omega
    · rw [if_neg h]; omega
  · by_cases h : decodeF L s = 0
    · rw [if_pos h]
    · rw [if_neg h]; omega
  · have hd := iterIncr_decode L (if decodeF L s = 0 then 2 ^ L.length else decodeF L s)
      (List.replicate len false) hnd
      (fun i hi => by rw [List.length_replicate]; exact hb i hi)
    rw [decodeF_replicate_false, Nat.zero_add] at hd
    have hmod : (if decodeF L s = 0 then 2 ^ L.length else decodeF L s) % 2 ^ L.length =
        decodeF L s := by
      by_cases h : decodeF L s = 0
      · simp [h]
      · rw [if_neg h, Nat.mod_eq_of_lt hv]
    rw [hmod] at hd
    exact decodeF_inj L _ s hd

/-- Outcome of the trial loop of one round of `ForSome`: a trial returned a
definite true; all trials returned definite false; or a trial came back
undetermined with the given requested set (`current_modulus_too_small`). -/
inductive RoundResult where
  | found : RoundResult
  | exhausted : RoundResult
  | grow : BitSet → RoundResult
deriving DecidableEq

/-- The trial loop of one round of `ForSome` (main.cc), with the loop
counter as fuel.  Each iteration first advances the binary counter over the
snapshotted position list, then evaluates the predicate on the resulting
buffer: a definite true ends the whole search, a definite false moves on to
the next trial, an undetermined result abandons the round and reports the
requested set. -/
def runRound (q : Query Bool) (P : BitSet) (L : List Nat) :
    List Bool → BitSet → Nat → RoundResult
  | _, _, 0 => .exhausted
  | scratch, req, e + 1 =>
    match runP q (incr L scratch) P req with
    | (some true, _) => .found
    | (some false, req2) => runRound q P L (incr L scratch) req2 e
    | (none, req2) => .grow req2

/-- End-of-round merge (main.cc): insert every requested index into the
present set, visiting them through `BitSet::ForEach`. -/
def mergePresent (P req : BitSet) : BitSet := req.toList.foldl BitSet.Insert P

/-- End-of-round buffer bound (main.cc): `new_scratch_size` starts at the
old scratch size and is maxed with `requested_index + 1` for every
requested index. -/
def mergeLen (len : Nat) (req : BitSet) : Nat :=
  req.toList.foldl (fun m r => max m (r + 1)) len

/-- The outer `while (true)` loop of `ForSome` (main.cc), with explicit
fuel bounding the number of rounds.  Each round snapshots the present set
into an ordered list, resets the scratch buffer to all-false at its current
size, runs `2^(1 + |present|)` trials, and on an undetermined result merges
the requested indices into the present set, resizes the scratch buffer, and
clears the requested set before looping. -/
def forSomeGo (q : Query Bool) : Nat → BitSet → Nat → Option Bool
  | 0, _, _ => none
  | fuel + 1, P, len =>
    match runRound q P P.toList (List.replicate len false) emptyBitSet
        (2 ^ (1 + P.size)) with
    | .found => some true
    | .exhausted => some false
    | .grow req => forSomeGo q fuel (mergePresent P req) (mergeLen len req)

/-- `ForSome` (main.cc): the search starts from an empty present set, empty
scratch buffer and empty requested set.  The C++ loop has no fuel and need
not terminate for an ill-behaved predicate; for a query tree, fuel
`|indices| + 1` rounds always suffices (each extra round grows the present
set by a position of the tree), which the correctness theorem exploits. -/
def ForSome (q : Query Bool) : Option Bool :=
  forSomeGo q (q.indices.card + 1) emptyBitSet 0

theorem runRound_exhausted (q : Query Bool) (P : BitSet) (L : List Nat)
    (e : Nat) :
    ∀ (scratch : List Bool) (req : BitSet),
      runRound q P L scratch req e = .exhausted →
      ∀ t, 1 ≤ t → t ≤ e →
        runP q (iterIncr L t scratch) P req = (some false, req) := by
  induction e with
  | zero => intro scratch req _ t ht1 ht2; omega
  | succ e ih =>
    intro scratch req h t ht1 ht2
    rw [runRound] at h
    rcases hr : runP q (incr L scratch) P req with ⟨res, req2⟩
    rw [hr] at h
    match res with
    | none => simp at h
    | some true => simp at h
    | some false =>
      obtain ⟨hreq, -⟩ := runP_some q _ P req false req2 hr
      subst hreq
      match t with
      | 1 => exact hr
      | t + 2 =>
        exact ih (incr L scratch) req2 h (t + 1) (by omega) (by omega)

theorem runRound_found (q : Query Bool) (P : BitSet) (L : List Nat)
    (e : Nat) :
    ∀ (scratch : List Bool) (req : BitSet),
      runRound q P L scratch req e = .found →
      ∃ t, 1 ≤ t ∧ t ≤ e ∧
        (runP q (iterIncr L t scratch) P req).1 = some true := by
  induction e with
  | zero => intro scratch req h; simp [runRound] at h
  | succ e ih =>
    intro scratch req h
    rw [runRound] at h
    rcases hr : runP q (incr L scratch) P req with ⟨res, req2⟩
    rw [hr] at h
    match res with
    | none => simp at h
    | some true =>
      exact ⟨1, le_refl 1, by omega, by rw [show iterIncr L 1 scratch = incr L scratch from rfl, hr]⟩
    | some false =>
      obtain ⟨hreq, -⟩ := runP_some q _ P req false req2 hr
      subst hreq
      obtain ⟨t, ht1, ht2, ht⟩ := ih (incr L scratch) req2 h
      exact ⟨t + 1, by omega, by omega, ht⟩

theorem runRound_grow (q : Query Bool) (P : BitSet) (L : List Nat)
    (e : Nat) :
    ∀ (scratch : List Bool) (req req2 : BitSet),
      runRound q P L scratch req e = .grow req2 →
      ∃ t, 1 ≤ t ∧ t ≤ e ∧
        runP q (iterIncr L t scratch) P req = (none, req2) := by
  induction e with
  | zero => intro scratch req req2 h; simp [runRound] at h
  | succ e ih =>
    intro scratch req req2 h
    rw [runRound] at h
    rcases hr : runP q (incr L scratch) P req with ⟨res, req3⟩
    rw [hr] at h
    match res with
    | none =>
      refine ⟨1, le_refl 1, by omega, ?_⟩
      rw [show iterIncr L 1 scratch = incr L scratch from rfl, hr]
      simp at h
      rw [h]
    | some true => simp at h
    | some false =>
      obtain ⟨hreq, -⟩ := runP_some q _ P req false req3 hr
      subst hreq
      obtain ⟨t, ht1, ht2, ht⟩ := ih (incr L scratch) req3 req2 h
      exact ⟨t + 1, by omega, by omega, ht⟩

theorem runRound_of_all_false (q : Query Bool) (P : BitSet) (L : List Nat)
    (e : Nat) :
    ∀ (scratch : List Bool) (req : BitSet),
      (∀ t, 1 ≤ t → t ≤ e →
        (runP q (iterIncr L t scratch) P req).1 = some false) →
      runRound q P L scratch req e = .exhausted := by
  induction e with
  | zero => intro scratch req _; rfl
  | succ e ih =>
    intro scratch req hall
    have h1 := hall 1 (le_refl 1) (by omega)
    rw [show iterIncr L 1 scratch = incr L scratch from rfl] at h1
    rcases hr : runP q (incr L scratch) P req with ⟨res, req2⟩
    rw [hr] at h1
    simp only at h1
    subst h1
    obtain ⟨hreq, -⟩ := runP_some q _ P req false req2 hr
    subst hreq
    rw [runRound, hr]
    exact ih (incr L scratch) req2
      (fun t ht1 ht2 => hall (t + 1) (by omega) (by omega))

theorem runRound_append (q : Query Bool) (P : BitSet) (L : List Nat)
    (a b : Nat) :
    ∀ (scratch : List Bool) (req : BitSet),
      runRound q P L scratch req (a + b) =
        match runRound q P L scratch req a with
        | .exhausted => runRound q P L (iterIncr L a scratch) req b
        | r => r := by
  induction a with
  | zero =>
    intro scratch req
    rw [Nat.zero_add]
    rfl
  | succ a ih =>
    intro scratch req
    have hadd : a + 1 + b = (a + b) + 1 := by omega
    rw [hadd, runRound, runRound]
    rcases hr : runP q (incr L scratch) P req with ⟨res, req2⟩
    match res with
    | none => rfl
    | some true => rfl
    | some false =>
      obtain ⟨hreq, -⟩ := runP_some q _ P req false req2 hr
      subst hreq
      show runRound q P L (incr L scratch) req2 (a + b) =
        match runRound q P L (incr L scratch) req2 a with
        | RoundResult.exhausted => runRound q P L (iterIncr L (a + 1) scratch) req2 b
        | r => r
      rw [ih (incr L scratch) req2]
      rfl

theorem mergePresent_singleton (P : BitSet) (r : Nat) :
    mergePresent P (emptyBitSet.Insert r) = P.Insert r := by
  rw [mergePresent, BitSet.Insert_empty_toList]
  rfl

theorem mergeLen_singleton (len r : Nat) :
    mergeLen len (emptyBitSet.Insert r) = max len (r + 1) := by
  rw [mergeLen, BitSet.Insert_empty_toList]
  rfl

theorem size_eq_toList_length (P : BitSet) : P.size = P.toList.length := rfl

/-- Correctness of the search loop, by induction on the fuel: provided the
fuel exceeds the number of tree positions not yet present and every present
index fits in the scratch buffer, the loop returns a definite answer which
is true exactly when some total bit sequence satisfies the query. -/
theorem forSomeGo_correct (q : Query Bool) :
    ∀ (fuel : Nat) (P : BitSet) (len : Nat),
      (q.indices \ P.toFinset).card < fuel →
      (∀ i, P.Contains i = true → i < len) →
      (forSomeGo q fuel P len = some true ↔ ∃ s, runTotal q s = true) ∧
      (forSomeGo q fuel P len = some false ↔ ¬ ∃ s, runTotal q s = true) := by
  intro fuel
  induction fuel with
  | zero => intro P len hcard _; omega
  | succ fuel ih =>
    intro P len hcard hinv
    have hnd := P.toList_nodup
    have hbL : ∀ i ∈ P.toList, i < len := fun i hi => hinv i ((P.mem_toList i).mp hi)
    rcases hr : runRound q P P.toList (List.replicate len false) emptyBitSet
        (2 ^ (1 + P.size)) with _ | _ | req
    · -- a trial hit a definite true: the buffer extended by false is a witness
      obtain ⟨t, ht1, ht2, ht⟩ := runRound_found q P P.toList _ _ _ hr
      rcases hrp : runP q (iterIncr P.toList t (List.replicate len false)) P
          emptyBitSet with ⟨res, req2⟩
      rw [hrp] at ht
      simp only at ht
      subst ht
      obtain ⟨-, hrun⟩ := runP_some q _ P emptyBitSet true req2 hrp
      have hex : ∃ s, runTotal q s = true :=
        ⟨fun i => (iterIncr P.toList t (List.replicate len false)).getD i false,
         hrun _ (fun i _ => rfl)⟩
      rw [forSomeGo]
      rw [hr]
      exact ⟨iff_of_true rfl hex, iff_of_false (by simp) (fun hn => hn hex)⟩
    · -- every trial was a definite false: no sequence can satisfy the query
      have hall : ∀ s : Nat → Bool, runTotal q s = false := by
        intro s
        obtain ⟨j, hj1, hj2, hjm⟩ := exists_trial_matching P.toList len hnd hbL s
        have hj2e : j ≤ 2 ^ (1 + P.size) := by
          have hpow : (2 : Nat) ^ P.toList.length ≤ 2 ^ (1 + P.size) := by
            apply Nat.pow_le_pow_right
            · omega
            · rw [size_eq_toList_length]; omega
          omega
        have hteq := runRound_exhausted q P P.toList _ _ _ hr j hj1 hj2e
        obtain ⟨-, hrun⟩ := runP_some q _ P emptyBitSet false emptyBitSet hteq
        exact hrun s (fun i hc => (hjm i ((P.mem_toList i).mpr hc)).symm)
      have hnoex : ¬ ∃ s, runTotal q s = true := by
        rintro ⟨s, hs⟩
        rw [hall s] at hs
        exact Bool.false_ne_true hs
      rw [forSomeGo]
      rw [hr]
      exact ⟨iff_of_false (by simp) hnoex, iff_of_true rfl hnoex⟩
    · -- an undetermined trial: the present set grows by the requested index
      obtain ⟨t, ht1, ht2, hteq⟩ := runRound_grow q P P.toList _ _ _ _ hr
      obtain ⟨r, hcr, hmemr, hreq⟩ := runP_none q _ P emptyBitSet req hteq
      subst hreq
      have hmem2 : r ∈ q.indices \ P.toFinset := by
        rw [Finset.mem_sdiff]
        refine ⟨hmemr, fun hc => ?_⟩
        rw [BitSet.mem_toFinset] at hc
        rw [hc] at hcr
        exact absurd hcr (by simp)
      have hcard2 : (q.indices \ (P.Insert r).toFinset).card < fuel := by
        rw [BitSet.toFinset_Insert]
        have heq : q.indices \ insert r P.toFinset =
            (q.indices \ P.toFinset).erase r := by
          ext x
          simp only [Finset.mem_sdiff, Finset.mem_insert, Finset.mem_erase]
          tauto
        rw [heq]
        have hlt := Finset.card_erase_lt_of_mem hmem2
        omega
      have hinv2 : ∀ i, (P.Insert r).Contains i = true → i < max len (r + 1) := by
        intro i hi
        rw [BitSet.Contains_Insert] at hi
        simp only [Bool.or_eq_true, decide_eq_true_eq] at hi
        rcases hi with h1 | h2
        · subst h1
          exact Nat.lt_of_lt_of_le (Nat.lt_succ_self i) (le_max_right _ _)
        · exact Nat.lt_of_lt_of_le (hinv i h2) (le_max_left _ _)
      rw [forSomeGo]
      simp only [hr]
      rw [mergePresent_singleton, mergeLen_singleton]
      exact ih (P.Insert r) (max len (r + 1)) hcard2 hinv2

/-- Specialisation of the loop correctness to the entry point. -/
theorem ForSome_correct (q : Query Bool) :
    (ForSome q = some true ↔ ∃ s, runTotal q s = true) ∧
    (ForSome q = some false ↔ ¬ ∃ s, runTotal q s = true) := by
  apply forSomeGo_correct
  · have hempty : emptyBitSet.toFinset = ∅ := rfl
    rw [hempty, Finset.sdiff_empty]
    omega
  · intro i h
    rw [BitSet.Contains_empty] at h
    exact absurd h (by simp)

/-- `ForEvery` (main.cc): wrap the predicate with `inverse_pred` and negate
the result of `ForSome`; an engine that does not return yields no value. -/
def ForEvery (q : Query Bool) : Option Bool :=
  (ForSome (negateQ q)).map (fun b => !b)

/-- The comparison predicate built by `Equal` (main.cc): evaluate both
functions on the same stream and compare, undetermined propagating through
the `ASSIGN_OR_RETURN` chain. -/
def equalCheck (fa fb : Query Bool) : Query Bool :=
  fa.bind fun a => fb.bind fun b => .done (a == b)

/-- `Equal<Bit>` (main.cc): both functions agree on every sequence. -/
def Equal (fa fb : Query Bool) : Option Bool := ForEvery (equalCheck fa fb)

/-- `FuncF` (main.cc): read position 4 as `t0`, position `t0 * 7` as `t1`,
position 7 as `t2`; return the int `t0 * 7 + t1 * t2` converted to `Bit`
(true iff nonzero). -/
def FuncF : Query Bool :=
  (getQ 4).bind fun t0 =>
  (getQ (t0.toNat * 7)).bind fun t1 =>
  (getQ 7).bind fun t2 =>
  .done (decide (t0.toNat * 7 + t1.toNat * t2.toNat ≠ 0))

/-- `FuncG` (main.cc): read position 4 as `t0`, position 7 as `t1`,
position `t0 + 11 * t1` as `t2`; return the int `t2 * t0` converted to
`Bit`. -/
def FuncG : Query Bool :=
  (getQ 4).bind fun t0 =>
  (getQ 7).bind fun t1 =>
  (getQ (t0.toNat + 11 * t1.toNat)).bind fun t2 =>
  .done (decide (t2.toNat * t0.toNat ≠ 0))

/-- The loop body of `Eq` (main.cc) over two abstract views, with the
remaining iteration count and the current position: read position `i` of
each view (`ASSIGN_OR_RETURN` aborts with undetermined), return false on
the first mismatch, true once all positions are compared. -/
def EqAux (a b : Nat → Option Bool) : Nat → Nat → Option Bool
  | 0, _ => some true
  | cnt + 1, i =>
    match a i with
    | none => none
    | some ai =>
      match b i with
      | none => none
      | some bi => if ai ≠ bi then some false else EqAux a b cnt (i + 1)

/-- `Eq(n, a, b)` (main.cc): compare positions `0, ..., n-1` of the views
`a` and `b` (the C++ loop runs `for (i = 0; i < n; i++)`). -/
def EqN (n : Nat) (a b : Nat → Option Bool) : Option Bool := EqAux a b n 0

/-- The index map of the first strided view built by `ForEvery2` (main.cc):
stride 2, offset 0, so position `i` of the view is position `i * 2` of the
product stream. -/
def viewA (i : Nat) : Nat := i * 2

/-- The index map of the second strided view of `ForEvery2`: stride 2,
offset 1. -/
def viewB (i : Nat) : Nat := i * 2 + 1

/-- `Eq(n, a, b)` called on two strided views of one product stream, as the
query tree it generates (position `i` of view `a` asks `va i` of the
product stream). -/
def EqQ (va vb : Nat → Nat) : Nat → Nat → Query Bool
  | 0, _ => .done true
  | cnt + 1, i =>
    .ask (va i) fun ai =>
    .ask (vb i) fun bi =>
    if ai ≠ bi then .done false else EqQ va vb cnt (i + 1)

/-- The single-stream predicate `Modulus` hands to the engine for a
candidate `n` (main.cc): `ForEvery2` splits the product stream into the two
strided views; the body checks `Eq(n, a, b)`, returns true on disagreement,
and otherwise compares `fn` on the two views. -/
def modPred (fq : Query Bool) (n : Nat) : Query Bool :=
  (EqQ viewA viewB n 0).bind fun equal =>
  if !equal then .done true
  else (strideQ viewA fq).bind fun fa =>
       (strideQ viewB fq).bind fun fb =>
       .done (fa == fb)

/-- The `is_modulus` test of `Modulus` (main.cc), as the boolean the C++
call produces when the engine terminates. -/
def isModulus (fq : Query Bool) (n : Nat) : Bool :=
  (ForEvery (modPred fq n)).getD false

/-- `Least` (main.cc): linear scan `i = 0, 1, 2, ...` for the first index
satisfying the test.  The C++ loop is unbounded; the embedding carries fuel
and the `Modulus` theorem shows the chosen fuel always suffices. -/
def LeastOpt (fn : Nat → Bool) : Nat → Nat → Option Nat
  | 0, _ => none
  | fuel + 1, i => if fn i then some i else LeastOpt fn fuel (i + 1)

/-- `Modulus<Bit>` (main.cc): `Least(is_modulus)`.  A fuel of (largest
position of the tree) + 2 always suffices. -/
def Modulus (fq : Query Bool) : Option Nat :=
  LeastOpt (isModulus fq) (fq.indices.sup id + 2) 0

/-- `OnlyOneActiveFind` guarding a `ForSome` entry (main.cc), with the
thread-local `find_is_active_` flag passed as explicit state (the spec's
design notes describe exactly this reimplementation).  A set flag at entry
aborts the process (`none`); otherwise the flag is set for the duration of
the call and the guard's destructor clears it on the exit path, so the call
returns the search result together with the flag value after the call. -/
def guardedForSome (flag : Bool) (q : Query Bool) : Option (Option Bool × Bool) :=
  if flag then none
  else some (ForSome q, false)

/-- Two consecutive non-nested `ForSome` calls on one thread, threading the
in-progress flag from the first call's exit into the second call's entry. -/
def twoCalls (q1 q2 : Query Bool) : Option (Option Bool × Option Bool × Bool) :=
  match guardedForSome false q1 with
  | none => none
  | some (r1, flag1) =>
    match guardedForSome flag1 q2 with
    | none => none
    | some (r2, flag2) => some (r1, r2, flag2)

/-- Modelled from the spec: the design-note variant of the Exists engine
that enumerates only `2^|present|` trials per round in place of the
implementation's `2^(|present| + 1)` (the doubled count is flagged in the
spec as a possible vestige that implementers may simplify away). -/
def forSomeGoVar (q : Query Bool) : Nat → BitSet → Nat → Option Bool
  | 0, _, _ => none
  | fuel + 1, P, len =>
    match runRound q P P.toList (List.replicate len false) emptyBitSet
        (2 ^ P.size) with
    | .found => some true
    | .exhausted => some false
    | .grow req => forSomeGoVar q fuel (mergePresent P req) (mergeLen len req)

/-- Modelled from the spec: entry point of the `2^|present|` variant. -/
def ForSomeVar (q : Query Bool) : Option Bool :=
  forSomeGoVar q (q.indices.card + 1) emptyBitSet 0

/-- The (present set, scratch buffer size) states that one call of
`ForSome` reaches: the initial empty state, and the merge of any requested
set produced by a round run from a reachable state. -/
inductive Reach (q : Query Bool) : BitSet → Nat → Prop where
  | init : Reach q emptyBitSet 0
  | step : ∀ (P : BitSet) (len : Nat) (req : BitSet),
      Reach q P len →
      runRound q P P.toList (List.replicate len false) emptyBitSet
        (2 ^ (1 + P.size)) = .grow req →
      Reach q (mergePresent P req) (mergeLen len req)

/-- The requested set coming out of a round is a singleton: one position of
the query tree that is outside the present set. -/
theorem grow_shape (q : Query Bool) (P : BitSet) (L : List Nat)
    (scratch : List Bool) (e : Nat) (req2 : BitSet)
    (h : runRound q P L scratch emptyBitSet e = .grow req2) :
    ∃ r, P.Contains r = false ∧ r ∈ q.indices ∧ req2 = emptyBitSet.Insert r := by
  obtain ⟨t, -, -, hteq⟩ := runRound_grow q P L e scratch emptyBitSet req2 h
  exact runP_none q _ P emptyBitSet req2 hteq

/-- Inserting one index preserves the buffer-bound invariant against the
merged buffer size. -/
theorem inv_insert (P : BitSet) (len r : Nat)
    (hinv : ∀ i, P.Contains i = true → i < len) :
    ∀ i, (P.Insert r).Contains i = true → i < max len (r + 1) := by
  intro i hi
  rw [BitSet.Contains_Insert] at hi
  simp only [Bool.or_eq_true, decide_eq_true_eq] at hi
  rcases hi with h1 | h2
  · subst h1
    exact Nat.lt_of_lt_of_le (Nat.lt_succ_self i) (le_max_right _ _)
  · exact Nat.lt_of_lt_of_le (hinv i h2) (le_max_left _ _)

theorem ForSome_isSome (q : Query Bool) : (ForSome q).isSome = true := by
  obtain ⟨h1, h2⟩ := ForSome_correct q
  by_cases h : ∃ s, runTotal q s = true
  · rw [h1.mpr h]; rfl
  · rw [h2.mpr h]; rfl

/-- `runP` on the negated predicate: the requested set is untouched and a
definite result is inverted while undetermined passes through. -/
theorem runP_negateQ (q : Query Bool) (vals : List Bool) (P req : BitSet) :
    runP (negateQ q) vals P req =
      ((runP q vals P req).1.map (fun b => !b), (runP q vals P req).2) := by
  rw [negateQ, runP_bind]
  rcases hr : runP q vals P req with ⟨res, req2⟩
  match res with
  | none => rfl
  | some b => rfl

theorem ForEvery_isSome (q : Query Bool) : (ForEvery q).isSome = true := by
  have h := ForSome_isSome (negateQ q)
  rcases ho : ForSome (negateQ q) with _ | b
  · rw [ho] at h; exact absurd h (by simp)
  · rw [ForEvery, ho]; rfl

theorem ForEvery_true_iff (q : Query Bool) :
    ForEvery q = some true ↔ ∀ s, runTotal q s = true := by
  obtain ⟨h1, h2⟩ := ForSome_correct (negateQ q)
  constructor
  · intro h s
    rcases ho : ForSome (negateQ q) with _ | b
    · rw [ForEvery, ho] at h; exact absurd h (by simp)
    · rw [ForEvery, ho] at h
      simp only [Option.map_some', Option.some_inj, Bool.not_eq_true'] at h
      rw [h] at ho
      have hno := h2.mp ho
      by_contra hneq
      refine hno ⟨s, ?_⟩
      rw [runTotal_negateQ, Bool.eq_false_iff.mpr hneq]
      rfl
  · intro hall
    have hno : ¬ ∃ s, runTotal (negateQ q) s = true := by
      rintro ⟨s, hs⟩
      rw [runTotal_negateQ, hall s] at hs
      exact absurd hs (by simp)
    rw [ForEvery, h2.mpr hno]
    rfl

theorem ForEvery_false_iff (q : Query Bool) :
    ForEvery q = some false ↔ ∃ s, runTotal q s = false := by
  obtain ⟨h1, h2⟩ := ForSome_correct (negateQ q)
  constructor
  · intro h
    rcases ho : ForSome (negateQ q) with _ | b
    · rw [ForEvery, ho] at h; exact absurd h (by simp)
    · rw [ForEvery, ho] at h
      simp only [Option.map_some', Option.some_inj, Bool.not_eq_false'] at h
      rw [h] at ho
      obtain ⟨s, hs⟩ := h1.mp ho
      rw [runTotal_negateQ] at hs
      exact ⟨s, by simpa using hs⟩
  · rintro ⟨s, hs⟩
    have hsome : ForSome (negateQ q) = some true := by
      refine h1.mpr ⟨s, ?_⟩
      rw [runTotal_negateQ, hs]
      rfl
    rw [ForEvery, hsome]
    rfl

theorem runRound_var_eq (q : Query Bool) (P : BitSet) (len : Nat)
    (hinv : ∀ i, P.Contains i = true → i < len) :
    runRound q P P.toList (List.replicate len false) emptyBitSet
        (2 ^ (1 + P.size)) =
      runRound q P P.toList (List.replicate len false) emptyBitSet
        (2 ^ P.size) := by
  have hnd := P.toList_nodup
  have hbrep : ∀ i ∈ P.toList, i < (List.replicate len false).length := by
    intro i hi
    rw [List.length_replicate]
    exact hinv i ((P.mem_toList i).mp hi)
  have h2 : 2 ^ (1 + P.size) = 2 ^ P.size + 2 ^ P.size := by
    rw [pow_add, pow_one, two_mul]
  rw [h2, runRound_append]
  rcases hv : runRound q P P.toList (List.replicate len false) emptyBitSet
      (2 ^ P.size) with _ | _ | req
  · rfl
  · show runRound q P P.toList
        (iterIncr P.toList (2 ^ P.size) (List.replicate len false)) emptyBitSet
        (2 ^ P.size) = RoundResult.exhausted
    apply runRound_of_all_false
    intro t ht1 ht2
    rw [iterIncr_add]
    have hall := runRound_exhausted q P P.toList _ _ _ hv t ht1 ht2
    have hcongr : runP q
        (iterIncr P.toList (t + 2 ^ P.size) (List.replicate len false)) P
          emptyBitSet =
        runP q (iterIncr P.toList t (List.replicate len false)) P emptyBitSet := by
      apply runP_congr
      have hd1 := iterIncr_decode P.toList (t + 2 ^ P.size)
        (List.replicate len false) hnd hbrep
      have hd2 := iterIncr_decode P.toList t (List.replicate len false) hnd hbrep
      rw [decodeF_replicate_false, Nat.zero_add] at hd1
      rw [decodeF_replicate_false, Nat.zero_add] at hd2
      have hmodeq : (t + 2 ^ P.size) % 2 ^ P.toList.length =
          t % 2 ^ P.toList.length := by
        rw [← size_eq_toList_length]
        exact Nat.add_mod_right t (2 ^ P.size)
      have heq : decodeF P.toList
          (fun i => (iterIncr P.toList (t + 2 ^ P.size)
            (List.replicate len false)).getD i false) =
          decodeF P.toList
          (fun i => (iterIncr P.toList t (List.replicate len false)).getD i false) := by
        rw [hd1, hd2, hmodeq]
      have hpt := decodeF_inj _ _ _ heq
      intro i hc
      exact hpt i ((P.mem_toList i).mpr hc)
    rw [hcongr, hall]
  · rfl

theorem forSomeGoVar_eq (q : Query Bool) :
    ∀ (fuel : Nat) (P : BitSet) (len : Nat),
      (∀ i, P.Contains i = true → i < len) →
      forSomeGoVar q fuel P len = forSomeGo q fuel P len := by
  intro fuel
  induction fuel with
  | zero => intro P len _; rfl
  | succ fuel ih =>
    intro P len hinv
    rw [forSomeGoVar, forSomeGo, runRound_var_eq q P len hinv]
    rcases hv : runRound q P P.toList (List.replicate len false) emptyBitSet
        (2 ^ P.size) with _ | _ | req
    · rfl
    · rfl
    · show forSomeGoVar q fuel (mergePresent P req) (mergeLen len req) =
        forSomeGo q fuel (mergePresent P req) (mergeLen len req)
      obtain ⟨r, hcr, -, hreq⟩ := grow_shape q P _ _ _ req hv
      subst hreq
      rw [mergePresent_singleton, mergeLen_singleton]
      exact ih (P.Insert r) (max len (r + 1)) (inv_insert P len r hinv)

theorem ForSomeVar_eq_ForSome (q : Query Bool) : ForSomeVar q = ForSome q := by
  rw [ForSomeVar, ForSome]
  apply forSomeGoVar_eq
  intro i h
  rw [BitSet.Contains_empty] at h
  exact absurd h (by simp)

theorem runTotal_EqQ (va vb : Nat → Nat) (s : Nat → Bool) :
    ∀ (cnt i : Nat),
      (runTotal (EqQ va vb cnt i) s = true ↔
        ∀ j, i ≤ j → j < i + cnt → s (va j) = s (vb j)) := by
  intro cnt
  induction cnt with
  | zero =>
    intro i
    refine iff_of_true rfl ?_
    intro j hj1 hj2
    omega
  | succ cnt ih =>
    intro i
    simp only [EqQ, runTotal]
    by_cases h : s (va i) = s (vb i)
    · rw [if_neg (fun hc => hc h), ih (i + 1)]
      constructor
      · intro hall j hj1 hj2
        rcases Nat.eq_or_lt_of_le hj1 with rfl | hlt
        · exact h
        · exact hall j hlt (by omega)
      · intro hall j hj1 hj2
        exact hall j (by omega) (by omega)
    · rw [if_pos h]
      refine iff_of_false (by simp [runTotal]) ?_
      intro hall
      exact h (hall i (le_refl i) (by omega))

theorem runTotal_modPred (fq : Query Bool) (n : Nat) (s : Nat → Bool) :
    runTotal (modPred fq n) s = true ↔
      ((∀ j < n, s (viewA j) = s (viewB j)) →
        runTotal fq (fun i => s (viewA i)) = runTotal fq (fun i => s (viewB i))) := by
  rw [modPred, runTotal_bind]
  by_cases hE : runTotal (EqQ viewA viewB n 0) s = true
  · simp only [hE, Bool.not_true, Bool.false_eq_true, if_false]
    rw [runTotal_bind, runTotal_bind, runTotal_strideQ, runTotal_strideQ, runTotal]
    constructor
    · intro hbeq _
      exact beq_iff_eq.mp hbeq
    · intro himp
      have hagree : ∀ j < n, s (viewA j) = s (viewB j) := by
        have hq := (runTotal_EqQ viewA viewB s n 0).mp hE
        intro j hj
        exact hq j (Nat.zero_le j) (by omega)
      rw [beq_iff_eq]
      exact himp hagree
  · have hEf : runTotal (EqQ viewA viewB n 0) s = false := by
      cases hq : runTotal (EqQ viewA viewB n 0) s
      · rfl
      · exact absurd hq hE
    simp only [hEf, Bool.not_false, if_true, runTotal, true_iff]
    intro hagree
    exfalso
    apply hE
    rw [runTotal_EqQ]
    intro j hj1 hj2
    exact hagree j (by omega)

/-- Merging two streams into one product stream, inverse to the two strided
views of `ForEvery2`. -/
def interleave (a b : Nat → Bool) : Nat → Bool :=
  fun j => if j % 2 = 0 then a (j / 2) else b (j / 2)

theorem interleave_viewA (a b : Nat → Bool) (i : Nat) :
    interleave a b (viewA i) = a i := by
  rw [interleave, viewA]
  have h1 : i * 2 % 2 = 0 := by omega
  have h2 : i * 2 / 2 = i := by omega
  rw [if_pos h1, h2]

theorem interleave_viewB (a b : Nat → Bool) (i : Nat) :
    interleave a b (viewB i) = b i := by
  rw [interleave, viewB]
  have h1 : ¬ (i * 2 + 1) % 2 = 0 := by omega
  have h2 : (i * 2 + 1) / 2 = i := by omega
  rw [if_neg h1, h2]

theorem isModulus_true_iff (fq : Query Bool) (n : Nat) :
    isModulus fq n = true ↔
      ∀ a b : Nat → Bool, (∀ i < n, a i = b i) →
        runTotal fq a = runTotal fq b := by
  rw [isModulus]
  have hgetD : ∀ o : Option Bool, (o.getD false = true ↔ o = some true) := by
    intro o; cases o <;> simp
  rw [hgetD, ForEvery_true_iff]
  constructor
  · intro hall a b hagree
    have hs := (runTotal_modPred fq n (interleave a b)).mp (hall (interleave a b))
    have hA : (fun i => interleave a b (viewA i)) = a :=
      funext fun i => interleave_viewA a b i
    have hB : (fun i => interleave a b (viewB i)) = b :=
      funext fun i => interleave_viewB a b i
    rw [hA, hB] at hs
    apply hs
    intro j hj
    rw [interleave_viewA, interleave_viewB]
    exact hagree j hj
  · intro himp s
    rw [runTotal_modPred]
    intro hagree
    exact himp _ _ (fun i hi => hagree i hi)

theorem isModulus_bound (fq : Query Bool) :
    isModulus fq (fq.indices.sup id + 1) = true := by
  rw [isModulus_true_iff]
  intro a b hagree
  apply runTotal_congr
  intro i hi
  apply hagree
  have h2 : id i ≤ fq.indices.sup id := Finset.le_sup hi
  simp only [id_eq] at h2
  omega

theorem LeastOpt_correct (fn : Nat → Bool) :
    ∀ (fuel i : Nat), (∃ k, i ≤ k ∧ k < i + fuel ∧ fn k = true) →
      ∃ m, LeastOpt fn fuel i = some m ∧ fn m = true ∧ i ≤ m ∧
        ∀ j, i ≤ j → j < m → fn j = false := by
  intro fuel
  induction fuel with
  | zero =>
    rintro i ⟨k, h1, h2, -⟩
    omega
  | succ fuel ih =>
    intro i hex
    by_cases h : fn i = true
    · exact ⟨i, by rw [LeastOpt, if_pos h], h, le_refl i,
        fun j hj1 hj2 => by omega⟩
    · obtain ⟨k, hk1, hk2, hk3⟩ := hex
      have hki : k ≠ i := fun he => h (he ▸ hk3)
      obtain ⟨m, hm1, hm2, hm3, hm4⟩ := ih (i + 1) ⟨k, by omega, by omega, hk3⟩
      refine ⟨m, ?_, hm2, by omega, ?_⟩
      · rw [LeastOpt, if_neg h]
        exact hm1
      · intro j hj1 hj2
        rcases Nat.eq_or_lt_of_le hj1 with rfl | hlt
        · exact Bool.eq_false_iff.mpr h
        · exact hm4 j (by omega) hj2

theorem Modulus_spec (fq : Query Bool) :
    ∃ m, Modulus fq = some m ∧
      (∀ a b : Nat → Bool, (∀ i < m, a i = b i) →
        runTotal fq a = runTotal fq b) ∧
      (∀ k, k < m → ∃ a b : Nat → Bool, (∀ i < k, a i = b i) ∧
        runTotal fq a ≠ runTotal fq b) := by
  obtain ⟨m, hm1, hm2, -, hm4⟩ := LeastOpt_correct (isModulus fq)
    (fq.indices.sup id + 2) 0
    ⟨fq.indices.sup id + 1, Nat.zero_le _, by omega, isModulus_bound fq⟩
  refine ⟨m, hm1, (isModulus_true_iff fq m).mp hm2, ?_⟩
  intro k hk
  have hkf : isModulus fq k = false := hm4 k (Nat.zero_le k) hk
  have hne : ¬ ∀ a b : Nat → Bool, (∀ i < k, a i = b i) →
      runTotal fq a = runTotal fq b := by
    intro hc
    rw [← isModulus_true_iff] at hc
    rw [hkf] at hc
    exact absurd hc (by simp)
  push_neg at hne
  obtain ⟨a, b, hab, hneq⟩ := hne
  exact ⟨a, b, hab, hneq⟩

/-- The views were determined and agreed at every position scanned before
position `j` (so the `Eq` loop reaches position `j`). -/
def agreeUpTo (a b : Nat → Option Bool) (lo j : Nat) : Prop :=
  ∀ k, lo ≤ k → k < j → (a k ≠ none ∧ b k ≠ none ∧ a k = b k)

theorem EqAux_spec (a b : Nat → Option Bool) :
    ∀ (cnt i : Nat),
      (EqAux a b cnt i = none ↔
        ∃ j, i ≤ j ∧ j < i + cnt ∧ (a j = none ∨ b j = none) ∧
          agreeUpTo a b i j) ∧
      (EqAux a b cnt i = some true ↔
        ∀ j, i ≤ j → j < i + cnt → (a j ≠ none ∧ a j = b j)) ∧
      (EqAux a b cnt i = some false ↔
        ∃ j, i ≤ j ∧ j < i + cnt ∧
          (∃ x y, a j = some x ∧ b j = some y ∧ x ≠ y) ∧
          agreeUpTo a b i j) := by
  intro cnt
  induction cnt with
  | zero =>
    intro i
    refine ⟨iff_of_false (by simp [EqAux]) ?_, iff_of_true rfl ?_,
      iff_of_false (by simp [EqAux]) ?_⟩
    · rintro ⟨j, h1, h2, -, -⟩; omega
    · intro j h1 h2; omega
    · rintro ⟨j, h1, h2, -, -⟩; omega
  | succ cnt ih =>
    intro i
    rcases ha : a i with _ | ai
    · have he : EqAux a b (cnt + 1) i = none := by rw [EqAux, ha]
      refine ⟨iff_of_true he
          ⟨i, le_refl i, by omega, Or.inl ha, fun k hk1 hk2 => absurd hk2 (by omega)⟩,
        iff_of_false (by rw [he]; simp) ?_, iff_of_false (by rw [he]; simp) ?_⟩
      · intro hall
        obtain ⟨h1, -⟩ := hall i (le_refl i) (by omega)
        exact h1 ha
      · rintro ⟨j, hj1, hj2, ⟨x, y, hx, hy, -⟩, hchain⟩
        rcases Nat.eq_or_lt_of_le hj1 with rfl | hlt
        · rw [ha] at hx; exact Option.noConfusion hx
        · obtain ⟨h1, -, -⟩ := hchain i (le_refl i) hlt
          exact h1 ha
    · rcases hb : b i with _ | bi
      · have he : EqAux a b (cnt + 1) i = none := by rw [EqAux, ha, hb]
        refine ⟨iff_of_true he
            ⟨i, le_refl i, by omega, Or.inr hb, fun k hk1 hk2 => absurd hk2 (by omega)⟩,
          iff_of_false (by rw [he]; simp) ?_, iff_of_false (by rw [he]; simp) ?_⟩
        · intro hall
          obtain ⟨-, heq⟩ := hall i (le_refl i) (by omega)
          rw [ha, hb] at heq
          exact Option.noConfusion heq
        · rintro ⟨j, hj1, hj2, ⟨x, y, hx, hy, -⟩, hchain⟩
          rcases Nat.eq_or_lt_of_le hj1 with rfl | hlt
          · rw [hb] at hy; exact Option.noConfusion hy
          · obtain ⟨-, h2, -⟩ := hchain i (le_refl i) hlt
            exact h2 hb
      · by_cases hne : ai = bi
        · have he : EqAux a b (cnt + 1) i = EqAux a b cnt (i + 1) := by
            rw [EqAux, ha, hb]
            show (if ai ≠ bi then some false else EqAux a b cnt (i + 1)) =
              EqAux a b cnt (i + 1)
            rw [if_neg (fun hc => hc hne)]
          obtain ⟨ih1, ih2, ih3⟩ := ih (i + 1)
          have hstep : a i ≠ none ∧ b i ≠ none ∧ a i = b i := by
            refine ⟨?_, ?_, ?_⟩
            · rw [ha]; exact Option.some_ne_none ai
            · rw [hb]; exact Option.some_ne_none bi
            · rw [ha, hb, hne]
          refine ⟨?_, ?_, ?_⟩
          · rw [he, ih1]
            constructor
            · rintro ⟨j, hj1, hj2, hd, hchain⟩
              refine ⟨j, by omega, by omega, hd, ?_⟩
              intro k hk1 hk2
              rcases Nat.eq_or_lt_of_le hk1 with rfl | hlt
              · exact hstep
              · exact hchain k hlt hk2
            · rintro ⟨j, hj1, hj2, hd, hchain⟩
              have hji : j ≠ i := by
                rintro rfl
                rcases hd with h1 | h1
                · rw [ha] at h1; exact Option.noConfusion h1
                · rw [hb] at h1; exact Option.noConfusion h1
              refine ⟨j, by omega, by omega, hd, ?_⟩
              intro k hk1 hk2
              exact hchain k (by omega) hk2
          · rw [he, ih2]
            constructor
            · intro hall j hj1 hj2
              rcases Nat.eq_or_lt_of_le hj1 with rfl | hlt
              · exact ⟨hstep.1, hstep.2.2⟩
              · exact hall j hlt (by omega)
            · intro hall j hj1 hj2
              exact hall j (by omega) (by omega)
          · rw [he, ih3]
            constructor
            · rintro ⟨j, hj1, hj2, hd, hchain⟩
              refine ⟨j, by omega, by omega, hd, ?_⟩
              intro k hk1 hk2
              rcases Nat.eq_or_lt_of_le hk1 with rfl | hlt
              · exact hstep
              · exact hchain k hlt hk2
            · rintro ⟨j, hj1, hj2, ⟨x, y, hx, hy, hxy⟩, hchain⟩
              have hji : j ≠ i := by
                rintro rfl
                rw [ha] at hx
                rw [hb] at hy
                exact hxy ((Option.some.inj hx).symm.trans
                  (hne.trans (Option.some.inj hy)))
              refine ⟨j, by omega, by omega, ⟨x, y, hx, hy, hxy⟩,
                fun k hk1 hk2 => hchain k (by omega) hk2⟩
        · have he : EqAux a b (cnt + 1) i = some false := by
            rw [EqAux, ha, hb]
            show (if ai ≠ bi then some false else EqAux a b cnt (i + 1)) = some false
            rw [if_pos hne]
          refine ⟨iff_of_false (by rw [he]; simp) ?_,
            iff_of_false (by rw [he]; simp) ?_,
            iff_of_true he ⟨i, le_refl i, by omega, ⟨ai, bi, ha, hb, hne⟩,
              fun k hk1 hk2 => absurd hk2 (by omega)⟩⟩
          · rintro ⟨j, hj1, hj2, hd, hchain⟩
            rcases Nat.eq_or_lt_of_le hj1 with rfl | hlt
            · rcases hd with h1 | h1
              · rw [ha] at h1; exact Option.noConfusion h1
              · rw [hb] at h1; exact Option.noConfusion h1
            · obtain ⟨-, -, h3⟩ := hchain i (le_refl i) hlt
              rw [ha, hb] at h3
              exact hne (Option.some.inj h3)
          · intro hall
            obtain ⟨-, heq⟩ := hall i (le_refl i) (by omega)
            rw [ha, hb] at heq
            exact hne (Option.some.inj heq)

/-- C1: for every predicate that is prefix-determined, `ForSome` returns
true if and only if some infinite bit sequence makes the predicate evaluate
to a definite true, and returns false otherwise (in the embedding the
engine also provably returns a value, so the two iffs cover both verdicts). -/
theorem claim_c1_forsome_correct (q : Query Bool) (hpre : PrefixDetermined q) :
    (ForSome q = some true ↔ ∃ s : Nat → Bool, runTotal q s = true) ∧
    (ForSome q = some false ↔ ¬ ∃ s : Nat → Bool, runTotal q s = true) :=
  ForSome_correct q

theorem claim_c1_witness :
    PrefixDetermined (getQ 0) ∧
    ((ForSome (getQ 0) = some true ↔ ∃ s : Nat → Bool, runTotal (getQ 0) s = true) ∧
     (ForSome (getQ 0) = some false ↔
       ¬ ∃ s : Nat → Bool, runTotal (getQ 0) s = true)) :=
  ⟨prefixDetermined_of_query (getQ 0),
   claim_c1_forsome_correct (getQ 0) (prefixDetermined_of_query (getQ 0))⟩

/-- C2: for every prefix-determined function, `Modulus` returns the least
`n` such that all pairs of sequences agreeing on the first `n` positions
yield equal results: at `m` all agreeing pairs give equal results, below
`m` (in particular at `m - 1` when `m > 0`) some agreeing pair differs.
(The spec's range `0..n` is its half-open convention for the code's loop
`for (i = 0; i < n; i++)`.) -/
theorem claim_c2_modulus_least (fq : Query Bool) (hpre : PrefixDetermined fq) :
    ∃ m, Modulus fq = some m ∧
      (∀ a b : Nat → Bool, (∀ i < m, a i = b i) →
        runTotal fq a = runTotal fq b) ∧
      (∀ k, k < m → ∃ a b : Nat → Bool, (∀ i < k, a i = b i) ∧
        runTotal fq a ≠ runTotal fq b) ∧
      (0 < m → ∃ a b : Nat → Bool, (∀ i < m - 1, a i = b i) ∧
        runTotal fq a ≠ runTotal fq b) := by
  obtain ⟨m, h1, h2, h3⟩ := Modulus_spec fq
  exact ⟨m, h1, h2, h3, fun hm => h3 (m - 1) (by omega)⟩

theorem claim_c2_witness :
    PrefixDetermined (Query.done false) ∧
    ∃ m, Modulus (Query.done false) = some m ∧
      (∀ a b : Nat → Bool, (∀ i < m, a i = b i) →
        runTotal (Query.done false) a = runTotal (Query.done false) b) ∧
      (∀ k, k < m → ∃ a b : Nat → Bool, (∀ i < k, a i = b i) ∧
        runTotal (Query.done false) a ≠ runTotal (Query.done false) b) ∧
      (0 < m → ∃ a b : Nat → Bool, (∀ i < m - 1, a i = b i) ∧
        runTotal (Query.done false) a ≠ runTotal (Query.done false) b) :=
  ⟨prefixDetermined_of_query (Query.done false),
   claim_c2_modulus_least (Query.done false)
     (prefixDetermined_of_query (Query.done false))⟩

/-- C3: `Eq(n, a, b)` compares the first `n` positions of the two views in
order (the spec's `0..n` in its half-open convention): it is undetermined
exactly when, scanning in order, some compared position is undetermined in
either view before any definite mismatch; with all scanned positions
determined it is true exactly when all compared bits match and false
exactly when a definite mismatch is reached. -/
theorem claim_c3_eq_prefixagree (n : Nat) (a b : Nat → Option Bool) :
    (EqN n a b = none ↔
      ∃ j, j < n ∧ (a j = none ∨ b j = none) ∧ agreeUpTo a b 0 j) ∧
    (EqN n a b = some true ↔ ∀ j, j < n → (a j ≠ none ∧ a j = b j)) ∧
    (EqN n a b = some false ↔
      ∃ j, j < n ∧ (∃ x y, a j = some x ∧ b j = some y ∧ x ≠ y) ∧
        agreeUpTo a b 0 j) := by
  obtain ⟨h1, h2, h3⟩ := EqAux_spec a b n 0
  rw [EqN]
  refine ⟨?_, ?_, ?_⟩
  · rw [h1]
    constructor
    · rintro ⟨j, -, hj2, hd, hc⟩
      exact ⟨j, by omega, hd, hc⟩
    · rintro ⟨j, hj1, hd, hc⟩
      exact ⟨j, by omega, by omega, hd, hc⟩
  · rw [h2]
    constructor
    · intro hall j hj
      exact hall j (by omega) (by omega)
    · intro hall j hj1 hj2
      exact hall j (by omega)
  · rw [h3]
    constructor
    · rintro ⟨j, -, hj2, hd, hc⟩
      exact ⟨j, by omega, hd, hc⟩
    · rintro ⟨j, hj1, hd, hc⟩
      exact ⟨j, by omega, by omega, hd, hc⟩

theorem claim_c3_witness :
    EqN 1 (fun _ => some true) (fun _ => some true) = some true :=
  (claim_c3_eq_prefixagree 1 (fun _ => some true) (fun _ => some true)).2.1.mpr
    (fun _ _ => ⟨Option.some_ne_none true, rfl⟩)

/-- C4: inside one `ForSome` call, when a round ends with an undetermined
trial, the merged present set extends the old one (the present set never
shrinks) and is strictly larger by at least one position before the next
round begins. -/
theorem claim_c4_present_grows (q : Query Bool) (P : BitSet) (L : List Nat)
    (scratch : List Bool) (e : Nat) (req : BitSet)
    (h : runRound q P L scratch emptyBitSet e = .grow req) :
    (∀ i, P.Contains i = true → (mergePresent P req).Contains i = true) ∧
    P.size < (mergePresent P req).size := by
  obtain ⟨r, hcr, -, hreq⟩ := grow_shape q P L scratch e req h
  subst hreq
  rw [mergePresent_singleton]
  constructor
  · intro i hi
    rw [BitSet.Contains_Insert, hi]
    simp
  · rw [BitSet.size_Insert_new P r hcr]
    omega

theorem claim_c4_witness :
    runRound (getQ 4) emptyBitSet [] [] emptyBitSet 2 =
      .grow (emptyBitSet.Insert 4) ∧
    ((∀ i, emptyBitSet.Contains i = true →
        (mergePresent emptyBitSet (emptyBitSet.Insert 4)).Contains i = true) ∧
      emptyBitSet.size <
        (mergePresent emptyBitSet (emptyBitSet.Insert 4)).size) := by
  have h : runRound (getQ 4) emptyBitSet [] [] emptyBitSet 2 =
      .grow (emptyBitSet.Insert 4) := by decide
  exact ⟨h, claim_c4_present_grows (getQ 4) emptyBitSet [] [] 2 _ h⟩

/-- C5: entering `ForSome` while another call is active on the same thread
aborts instead of returning a value (the thread-local flag is modeled as
explicitly threaded state, as the spec's design notes prescribe); on a
normal exit the flag is cleared, so two consecutive non-nested calls both
succeed. -/
theorem claim_c5_reentrancy_guard (q1 q2 : Query Bool) :
    (∀ flag, guardedForSome flag q1 = none ↔ flag = true) ∧
    guardedForSome false q1 = some (ForSome q1, false) ∧
    twoCalls q1 q2 = some (ForSome q1, ForSome q2, false) := by
  refine ⟨?_, rfl, rfl⟩
  intro flag
  cases flag <;> simp [guardedForSome]

/-- C6: `ForEvery` is the negation of `ForSome` on the wrapped predicate
`negateQ`, which passes undetermined results (and the requested set)
through unchanged and inverts definite boolean results. -/
theorem claim_c6_forevery_negation (q : Query Bool) :
    ForEvery q = (ForSome (negateQ q)).map (fun b => !b) ∧
    (∀ (vals : List Bool) (P req : BitSet),
      runP (negateQ q) vals P req =
        ((runP q vals P req).1.map (fun b => !b), (runP q vals P req).2)) ∧
    (∀ s : Nat → Bool, runTotal (negateQ q) s = !(runTotal q s)) :=
  ⟨rfl, fun vals P req => runP_negateQ q vals P req,
   fun s => runTotal_negateQ q s⟩

/-- C7: the spec's variant of the engine that enumerates only
`2^|present|` trials per round computes the same result as the implemented
engine with `2^(|present| + 1)` trials, for every predicate: the doubled
enumeration only repeats assignments. -/
theorem claim_c7_trial_count_variant (q : Query Bool) :
    ForSomeVar q = ForSome q :=
  ForSomeVar_eq_ForSome q

/-- C8: on the concrete functions F and G of main.cc, `Equal(F,F)` and
`Equal(G,G)` are true while `Equal(F,G)` and `Equal(G,F)` are false. -/
theorem claim_c8_equal_concrete :
    Equal FuncF FuncF = some true ∧ Equal FuncG FuncG = some true ∧
    Equal FuncF FuncG = some false ∧ Equal FuncG FuncF = some false := by
  decide

/-- C9: at every state one `ForSome` call reaches, any index in the present
set is strictly below the scratch buffer size, so the buffer read of
`LazyBitStream::Get` is in bounds whenever `Contains(idx)` holds; and the
undetermined branch that records the request fires exactly when the index
is outside the present set. -/
theorem claim_c9_lazyget_safe (q : Query Bool) (P : BitSet) (len : Nat)
    (hre : Reach q P len) :
    ∀ (idx : Nat) (scratch : List Bool) (req : BitSet),
      scratch.length = len →
      (P.Contains idx = true →
        idx < scratch.length ∧
        lazyGet scratch P req idx = (some (scratch.getD idx false), req)) ∧
      (P.Contains idx = false →
        lazyGet scratch P req idx = (none, req.Insert idx)) := by
  have hinv : ∀ i, P.Contains i = true → i < len := by
    induction hre with
    | init =>
      intro i hi
      rw [BitSet.Contains_empty] at hi
      exact absurd hi (by simp)
    | step P0 len0 req0 hre0 hgrow ih =>
      obtain ⟨r, hcr, -, hreq⟩ := grow_shape _ _ _ _ _ _ hgrow
      subst hreq
      rw [mergePresent_singleton, mergeLen_singleton]
      exact inv_insert P0 len0 r ih
  intro idx scratch req hlen
  constructor
  · intro hc
    have hidx : idx < scratch.length := by
      rw [hlen]
      exact hinv idx hc
    exact ⟨hidx, by rw [lazyGet, if_pos hc]⟩
  · intro hc
    have hnc : ¬ (P.Contains idx = true) := by
      rw [hc]
      simp
    rw [lazyGet, if_neg hnc]

theorem claim_c9_witness :
    (emptyBitSet.Contains 0 = true →
      0 < ([] : List Bool).length ∧
      lazyGet [] emptyBitSet emptyBitSet 0 =
        (some (([] : List Bool).getD 0 false), emptyBitSet)) ∧
    (emptyBitSet.Contains 0 = false →
      lazyGet [] emptyBitSet emptyBitSet 0 = (none, emptyBitSet.Insert 0)) :=
  claim_c9_lazyget_safe (getQ 0) emptyBitSet 0 Reach.init 0 [] emptyBitSet rfl

/-- C10: `BitSet::ForEach` visits the members in strictly increasing order,
so the snapshot list is sorted ascending, its head is the least member, and
the round's trial enumeration is a binary-counter walk over that list: after
`j` counter steps from the all-false buffer the list decodes (least
significant digit = head = smallest present position) to `j mod 2^|L|`. -/
theorem claim_c10_foreach_order (b : BitSet) :
    List.Pairwise (· < ·) b.toList ∧
    (∀ x, b.Contains x = true → ∀ m, b.toList.head? = some m → m ≤ x) ∧
    (∀ (len j : Nat), (∀ i ∈ b.toList, i < len) →
      decodeF b.toList
        (fun i => (iterIncr b.toList j (List.replicate len false)).getD i false) =
        j % 2 ^ b.toList.length) := by
  refine ⟨b.toList_sorted, ?_, ?_⟩
  · intro x hx m hm
    have hmem : x ∈ b.toList := (b.mem_toList x).mpr hx
    have hsorted := b.toList_sorted
    rcases hl : b.toList with _ | ⟨y, t⟩
    · rw [hl] at hm
      exact Option.noConfusion hm
    · rw [hl] at hm hmem hsorted
      have hym : y = m := Option.some.inj hm
      subst hym
      rcases List.mem_cons.mp hmem with rfl | hxt
      · exact le_refl x
      · exact le_of_lt ((List.pairwise_cons.mp hsorted).1 x hxt)
  · intro len j hb2
    have hnd := b.toList_nodup
    have hd := iterIncr_decode b.toList j (List.replicate len false) hnd
      (fun i hi => by rw [List.length_replicate]; exact hb2 i hi)
    rw [decodeF_replicate_false, Nat.zero_add] at hd
    exact hd

theorem claim_c10_witness :
    decodeF (BitSet.mk [false, true, true]).toList
      (fun i => (iterIncr (BitSet.mk [false, true, true]).toList 5
        (List.replicate 3 false)).getD i false) =
      5 % 2 ^ (BitSet.mk [false, true, true]).toList.length :=
  (claim_c10_foreach_order (BitSet.mk [false, true, true])).2.2 3 5 (by decide)

end Cantor
